import Mathlib

/-!
Verification of the java-cg call-graph extractor (src/py): a shallow
embedding of `helpers.py`, `call_graph.py`, `extract_java_project_call_graph.py`
and `extract_multi_java_project_call_graphs.py`, with theorems settling the
specification claims about fqn construction, graph building, LSP resolution
fallback, interval lookup, path relativisation, and the multi-project
scheduler's failure isolation, output dispatch and concurrency bound.
-/

set_option autoImplicit false

namespace JavaCG

/-! ## Path model

`pathlib.Path` values are modelled as an absolute-flag plus the list of path
components.  `pathStr` is `str(path)`; an empty relative path prints as `"."`,
as in Python. -/

structure PPath where
  absolute : Bool
  parts : List String
deriving DecidableEq, Repr

/-- Split a character list at a separator; kernel-reducible counterpart of
`str.split(sep)`. -/
def splitChars (sep : Char) : List Char → List (List Char)
  | [] => [[]]
  | c :: rest =>
      let r := splitChars sep rest
      if c = sep then [] :: r
      else
        match r with
        | [] => [[c]]
        | p :: ps => (c :: p) :: ps

/-- `s.split(sep)`. -/
def strSplitOn (s : String) (sep : Char) : List String :=
  (splitChars sep s.data).map String.mk

/-- `s.startswith(pre)`. -/
def strStartsWith (s pre : String) : Bool :=
  pre.data.isPrefixOf s.data

/-- `s[n:]`. -/
def strDrop (s : String) (n : Nat) : String :=
  String.mk (s.data.drop n)

def pathStr (p : PPath) : String :=
  if p.absolute then "/" ++ String.intercalate "/" p.parts
  else if p.parts = [] then "." else String.intercalate "/" p.parts

/-- `Path.relative_to`: succeeds exactly when the anchors agree and the root's
components are a prefix of the path's components; the result is relative.
A `ValueError` is the `none` branch. -/
def relative_to (path root : PPath) : Option PPath :=
  if path.absolute = root.absolute ∧ root.parts.isPrefixOf path.parts = true then
    some ⟨false, path.parts.drop root.parts.length⟩
  else none

/-- `helpers.rel` (helpers.py lines 9-13): `str(path.relative_to(root))`,
falling back to `str(path)` when `relative_to` raises `ValueError`. -/
def rel (root path : PPath) : String :=
  match relative_to path root with
  | some r => pathStr r
  | none => pathStr path

/-- `root / s` where `s` is a path string: an absolute `s` replaces the root,
a relative `s` is appended component-wise (paths assumed already normalised,
so `.resolve()` is the identity). -/
def joinPath (root : PPath) (s : String) : PPath :=
  if s = "." then root
  else if strStartsWith s "/" then ⟨true, strSplitOn (strDrop s 1) '/'⟩
  else ⟨root.absolute, root.parts ++ strSplitOn s '/'⟩

/-! ## Python dict model

A `dict` is an association list in insertion order: assigning to an existing
key replaces the value in place (keeping the key's position), assigning to a
fresh key appends. -/

def dictInsert {κ ν : Type} [DecidableEq κ] (k : κ) (v : ν) :
    List (κ × ν) → List (κ × ν)
  | [] => [(k, v)]
  | (k', v') :: rest =>
      if k' = k then (k, v) :: rest else (k', v') :: dictInsert k v rest

def dictGet {κ ν : Type} [DecidableEq κ] : List (κ × ν) → κ → Option ν
  | [], _ => none
  | (k', v) :: rest, k => if k' = k then some v else dictGet rest k

/-- `set.add` on a set modelled as a duplicate-free list in insertion order. -/
def setAdd (s : List String) (x : String) : List String :=
  if x ∈ s then s else s ++ [x]

/-! ## Data model (call_graph.py lines 8-22) -/

/-- `call_graph.CallSite`. -/
structure CallSite where
  target_simple : String
  file_path : PPath
  line : Nat
  column : Nat
deriving DecidableEq, Repr

/-- `call_graph.FunctionInfo`; `calls` is a set of strings, modelled as a
duplicate-free list in insertion order. -/
structure FunctionInfo where
  fqn : String
  file_path : String
  start_line : Nat
  end_line : Nat
  calls : List String := []
  unresolved_sites : List CallSite := []
deriving DecidableEq, Repr

/-! ## Graph model (networkx `DiGraph` as used by call_graph.py)

Nodes are an insertion-ordered association list from fqn to optional
metadata; nodes created implicitly by `add_edge` carry no metadata.  Edges
are a duplicate-free list of pairs (the graph is simple). -/

structure NodeMeta where
  file : String
  start_line : Nat
  end_line : Nat
deriving DecidableEq, Repr

structure Graph where
  nodes : List (String × Option NodeMeta)
  edges : List (String × String)
deriving DecidableEq, Repr

/-- `G.add_node(n)` as issued by `add_edge` for a missing endpoint: inserts
the node with no attributes, and leaves an existing node untouched. -/
def addNodeBare (g : Graph) (n : String) : Graph :=
  if n ∈ g.nodes.map Prod.fst then g
  else { g with nodes := g.nodes ++ [(n, none)] }

/-- `G.add_node(n, file=…, start=…, end=…)`: updates the attributes of an
existing node in place, or appends a new node. -/
def addNodeMeta (g : Graph) (n : String) (m : NodeMeta) : Graph :=
  if n ∈ g.nodes.map Prod.fst then
    { g with nodes := g.nodes.map (fun p => if p.1 = n then (n, some m) else p) }
  else { g with nodes := g.nodes ++ [(n, some m)] }

/-- `G.add_edge(u, v)`: adds missing endpoints as attribute-less nodes and
records the edge once. -/
def addEdge (g : Graph) (u v : String) : Graph :=
  let g' := addNodeBare (addNodeBare g u) v
  if (u, v) ∈ g'.edges then g' else { g' with edges := g'.edges ++ [(u, v)] }

/-- The body of `build_graph`'s loop for one record (call_graph.py lines
26-29): add the record's node with its metadata, then one edge per call. -/
def buildStep (g : Graph) (p : String × FunctionInfo) : Graph :=
  let info := p.2
  let g' := addNodeMeta g info.fqn ⟨info.file_path, info.start_line, info.end_line⟩
  info.calls.foldl (fun h c => addEdge h info.fqn c) g'

/-- `call_graph.build_graph` (call_graph.py lines 24-30). -/
def build_graph (infos : List (String × FunctionInfo)) : Graph :=
  infos.foldl buildStep ⟨[], []⟩

/-! ## Source indexer model (extract_java_project_call_graph.py lines 70-118)

A parsed Java file is presented by its tree-sitter query results: the
declared package (if any), the class-declaration nodes with their byte
ranges, and the method/constructor declarations, each with its start byte,
the simple name's line, the declaration's closing line, and the call
expressions of its body (each reduced to the rightmost identifier with its
0-based position, as `CALL_QUERY` captures it). -/

structure ClsNode where
  name : String
  start_byte : Nat
  end_byte : Nat
deriving DecidableEq, Repr

structure CallNode where
  callee : String
  line : Nat
  column : Nat
deriving DecidableEq, Repr

structure MethNode where
  name : String
  start_byte : Nat
  name_line : Nat
  end_line : Nat
  body_calls : List CallNode
deriving DecidableEq, Repr

structure JavaFile where
  stem : String
  path : PPath
  pkg : Option String
  classes : List ClsNode
  methods : List MethNode
deriving DecidableEq, Repr

/-- `helpers.class_stack` (helpers.py lines 21-27): the names of the class
nodes whose byte range contains the offset, in capture (outer-to-inner)
order. -/
def class_stack (byte_offset : Nat) : List ClsNode → List String
  | [] => []
  | c :: rest =>
      if c.start_byte ≤ byte_offset ∧ byte_offset ≤ c.end_byte then
        c.name :: class_stack byte_offset rest
      else class_stack byte_offset rest

/-- The fqn assembly of `collect_infos` (lines 86-92): the class stack falls
back to the file's base name when empty; the package part is dropped when
absent or empty (Python truthiness); the parts are dot-joined.  The
`classes or ["<top>"]` alternative of line 90 is kept even though the line-88
fallback makes it unreachable. -/
def mkFqn (pkg : Option String) (classes0 : List String) (stem name : String) : String :=
  let classes := if classes0 = [] then [stem] else classes0
  let pkgPart := match pkg with
    | some p => if p = "" then [] else [p]
    | none => []
  let clsPart := if classes = [] then ["<top>"] else classes
  String.intercalate "." (pkgPart ++ clsPart ++ [name])

/-- The fqn of one method declaration within a file, as computed by
`collect_infos`. -/
def methodFqn (f : JavaFile) (m : MethNode) : String :=
  mkFqn f.pkg (class_stack m.start_byte f.classes) f.stem m.name

/-- The `FunctionInfo` built by `collect_infos` for one method declaration
(lines 94-114): in LSP mode each body call becomes a pending `CallSite`
keyed by the file's absolute path, otherwise the callee's simple name is
added to the `calls` set. -/
def methodInfo (root : PPath) (f : JavaFile) (m : MethNode) (use_lsp : Bool) :
    FunctionInfo :=
  let info0 : FunctionInfo :=
    { fqn := methodFqn f m
      file_path := rel root f.path
      start_line := m.name_line
      end_line := m.end_line }
  m.body_calls.foldl
    (fun info c =>
      if use_lsp then
        { info with unresolved_sites :=
            info.unresolved_sites ++ [⟨c.callee, f.path, c.line, c.column⟩] }
      else { info with calls := setAdd info.calls c.callee })
    info0

/-- `collect_infos` (lines 70-118): a dict from fqn to `FunctionInfo`,
filled file by file, method by method; a repeated fqn overwrites the earlier
entry (line 116). -/
def collect_infos (root : PPath) (files : List JavaFile) (use_lsp : Bool) :
    List (String × FunctionInfo) :=
  files.foldl
    (fun infos f =>
      f.methods.foldl
        (fun infos m =>
          let info := methodInfo root f m use_lsp
          dictInsert info.fqn info infos)
        infos)
    []

/-! ## LSP resolution model (extract_java_project_call_graph.py lines 121-164) -/

/-- The `start` sub-object of an LSP range: its `line` field may be absent. -/
structure LocRange where
  start_line : Option Nat
deriving DecidableEq, Repr

/-- One location returned by `request_definition`: any of the keys `uri`,
`targetUri`, `range`, `targetRange` may be absent. -/
structure Loc where
  uri : Option String
  targetUri : Option String
  range : Option LocRange
  targetRange : Option LocRange
deriving DecidableEq, Repr

/-- The outcome of one `lsp.request_definition` call: a raised exception, or
a (possibly empty) list of locations. -/
inductive LookupResp where
  | exn : LookupResp
  | res : List Loc → LookupResp
deriving DecidableEq, Repr

/-- Python `a or b` on optional strings: `None` and `""` are falsy. -/
def pyOrStr (a b : Option String) : Option String :=
  match a with
  | some s => if s = "" then b else some s
  | none => b

/-- `def_index` (lines 129-133): per absolute file path, a dict from
`(start_line, end_line)` to fqn, in record-insertion order. -/
def buildDefIndex (root : PPath) (infos : List (String × FunctionInfo)) :
    List (PPath × List ((Nat × Nat) × String)) :=
  infos.foldl
    (fun idx p =>
      let info := p.2
      let abs := joinPath root info.file_path
      let fileMap := (dictGet idx abs).getD []
      dictInsert abs
        (dictInsert (info.start_line, info.end_line) info.fqn fileMap) idx)
    []

/-- The loop of `locate_fqn` (lines 136-138): the first interval in the
dict's iteration (= insertion) order that contains the line wins. -/
def findInterval (line0 : Nat) : List ((Nat × Nat) × String) → Option String
  | [] => none
  | (r, fqn) :: rest =>
      if r.1 ≤ line0 ∧ line0 ≤ r.2 then some fqn else findInterval line0 rest

/-- `locate_fqn` (lines 135-139). -/
def locate_fqn (idx : List (PPath × List ((Nat × Nat) × String)))
    (abs_path : PPath) (line0 : Nat) : Option String :=
  findInterval line0 ((dictGet idx abs_path).getD [])

/-- `Path(uri[7:])` for a `file://` uri. -/
def parseUriPath (u : String) : PPath :=
  let s := strDrop u 7
  if strStartsWith s "/" then ⟨true, strSplitOn (strDrop s 1) '/'⟩
  else ⟨false, strSplitOn s '/'⟩

/-- The per-call-site body of the resolution loop (lines 145-161): `none`
means the `continue` branches were taken and the site contributes no call
target; `some t` means `t` is added to the record's `calls`. -/
def processSite (idx : List (PPath × List ((Nat × Nat) × String)))
    (resp : LookupResp) (cs : CallSite) : Option String :=
  match resp with
  | .exn => none
  | .res [] => none
  | .res (loc :: _) =>
      match pyOrStr loc.uri loc.targetUri with
      | none => none
      | some u =>
          if strStartsWith u "file://" then
            match (loc.range.orElse (fun _ => loc.targetRange)) with
            | none => none
            | some rng =>
                match rng.start_line with
                | none => none
                | some line0 =>
                    some ((locate_fqn idx (parseUriPath u) line0).getD cs.target_simple)
          else none

/-- The lookup request issued for a call site (line 146): project-relative
file, 1-based line, 0-based column. -/
def siteRequest (root : PPath) (resp : String → Nat → Nat → LookupResp)
    (cs : CallSite) : LookupResp :=
  resp (rel root cs.file_path) (cs.line + 1) cs.column

/-- The resolution pass over one record: every pending site either adds a
call target or is skipped, and the pending list is cleared afterwards
(lines 143-164). -/
def resolveInfo (idx : List (PPath × List ((Nat × Nat) × String)))
    (root : PPath) (resp : String → Nat → Nat → LookupResp)
    (info : FunctionInfo) : FunctionInfo :=
  { info with
    calls :=
      info.unresolved_sites.foldl
        (fun acc cs =>
          match processSite idx (siteRequest root resp cs) cs with
          | some t => setAdd acc t
          | none => acc)
        info.calls
    unresolved_sites := [] }

/-- `resolve_with_lsp` (lines 121-164) given that multilspy is available:
builds the definition index, resolves every record's pending sites, and
clears them. -/
def resolve_with_lsp (root : PPath) (resp : String → Nat → Nat → LookupResp)
    (infos : List (String × FunctionInfo)) : List (String × FunctionInfo) :=
  let idx := buildDefIndex root infos
  infos.map (fun p => (p.1, resolveInfo idx root resp p.2))

/-! ## Single-project pipeline (extract_java_project_call_graph.py lines 166-176)

`sys.exit(msg)` is the `Except.error` branch.  The event trace records that
indexing completed, each definition lookup issued, and the graph build, so
that ordering properties ("after indexing, before any lookup") are visible. -/

inductive PEvent where
  | indexed : PEvent
  | lookup : PEvent
  | built : PEvent
deriving DecidableEq, Repr

def exceptIsOk {ε α : Type} : Except ε α → Bool
  | .ok _ => true
  | .error _ => false

/-- Total number of pending call sites, i.e. of `request_definition` calls
the resolution pass issues. -/
def totalSites (infos : List (String × FunctionInfo)) : Nat :=
  (infos.map (fun p => p.2.unresolved_sites.length)).foldl (· + ·) 0

/-- `extract_java_project_call_graph` (lines 166-176) together with the
module-availability guard of `resolve_with_lsp` (lines 121-123): checks the
root, indexes, exits if `--lsp` was requested without multilspy, otherwise
optionally resolves, and builds the graph. -/
def extract_run (isDir : Bool) (root : PPath) (files : List JavaFile)
    (use_lsp avail : Bool) (resp : String → Nat → Nat → LookupResp) :
    List PEvent × Except String Graph :=
  if isDir = false then
    ([], .error ("Not a directory: " ++ pathStr root))
  else
    let infos := collect_infos root files use_lsp
    if use_lsp then
      if avail = false then
        ([PEvent.indexed],
         .error "--lsp requested but multilspy not installed. Run: pip install multilspy")
      else
        ([PEvent.indexed] ++ List.replicate (totalSites infos) PEvent.lookup
           ++ [PEvent.built],
         .ok (build_graph (resolve_with_lsp root resp infos)))
    else
      ([PEvent.indexed, PEvent.built], .ok (build_graph infos))

/-! ## Multi-project scheduler (extract_multi_java_project_call_graphs.py)

`main` creates one task per project line, awaits `asyncio.gather(*tasks)` —
which propagates the first raised exception and otherwise returns the
results in task order — and then writes each project's output sequentially:
an `os.mkdir` failure is printed and ignored, a `write_graph_output` failure
prints and calls `sys.exit()`, aborting the rest of the loop. -/

/-- `asyncio.gather(*tasks)` without `return_exceptions`: all results in
task order, or the exception of a failed task. -/
def gather {α : Type} : List (Except String α) → Except String (List α)
  | [] => .ok []
  | .error e :: _ => .error e
  | .ok a :: rest => (gather rest).map (a :: ·)

/-- The output loop of `main` (lines 38-54), returning the list of projects
whose output was written: `mkdirOk` failures are printed and ignored,
the first `writeOk` failure exits the process. -/
def dispatchOutputs (mkdirOk writeOk : String → Bool) :
    List (String × Graph) → List String
  | [] => []
  | (name, _) :: rest =>
      if writeOk name then name :: dispatchOutputs mkdirOk writeOk rest
      else []

/-- `main` of extract_multi_java_project_call_graphs.py (lines 22-54),
abstracted over each project's pipeline outcome and the filesystem's answers
to `os.mkdir` and `write_graph_output`; the value is the list of projects
whose output was written. -/
def multiMain (pipe : String → Except String Graph)
    (mkdirOk writeOk : String → Bool) (projects : List String) : List String :=
  match gather (projects.map (fun p => (pipe p).map (fun g => (p, g)))) with
  | .error _ => []
  | .ok results => dispatchOutputs mkdirOk writeOk results

/-! ### Temporal trace of the multi-project run -/

inductive MEvent where
  | finish : Nat → MEvent
  | write : Nat → MEvent
deriving DecidableEq, BEq, Repr

/-- The temporal event order of a successful `main` run over `n` projects:
the pipelines finish in some order (`finishOrder`, a permutation of
`0, …, n-1` by completion time), `asyncio.gather` returns only after the
last of them, and then the outputs are written sequentially in task order
(lines 37-54). -/
def multiTrace (finishOrder : List Nat) (n : Nat) : List MEvent :=
  finishOrder.map MEvent.finish ++ (List.range n).map MEvent.write

/-! ### Worker-pool model (lines 12-35)

`async_extract_java_project_call_graph` (line 12) declares a default
argument `executor=ThreadPoolExecutor(max_workers=4)`, a module-level pool
created once.  `main` (line 30) builds a second pool from `--max-workers`
but the call on line 35 passes no executor, so every task runs on the
default pool. -/

structure ThreadPool where
  max_workers : Nat
deriving DecidableEq, Repr

/-- The pool bound to the default `executor` argument on line 12. -/
def defaultAsyncExtractPool : ThreadPool := ⟨4⟩

/-- The executor `async_extract_java_project_call_graph` actually submits
to, given the argument it was called with. -/
def asyncExtractPoolUsed (arg : Option ThreadPool) : ThreadPool :=
  arg.getD defaultAsyncExtractPool

/-- The pool `main` constructs from `--max-workers` on line 30. -/
def mainPoolFromArgs (max_workers : Nat) : ThreadPool := ⟨max_workers⟩

/-- The pool the tasks created on line 35 run on: the call passes no
`executor` argument, so the `--max-workers` value plays no part. -/
def mainSubmitPool (_max_workers : Nat) : ThreadPool := asyncExtractPoolUsed none

/-- One scheduling round of a FIFO thread pool: idle workers pick up queued
tasks in order, every running task advances one tick.  Returns the number
of simultaneously running tasks this round and the next queue/running
state. -/
def poolRound (w : Nat) (queue running : List Nat) :
    Nat × List Nat × List Nat :=
  let started := queue.take (w - running.length)
  let rest := queue.drop (w - running.length)
  let now := running ++ started
  (now.length, rest, (now.map (fun d => d - 1)).filter (fun d => 0 < d))

/-- Fuel-bounded simulation returning the maximum number of simultaneously
running tasks. -/
def poolSim (w : Nat) : Nat → List Nat → List Nat → Nat
  | 0, _, _ => 0
  | fuel + 1, queue, running =>
      if queue = [] ∧ running = [] then 0
      else
        let r := poolRound w queue running
        max r.1 (poolSim w fuel r.2.1 r.2.2)

/-- Maximum number of task pipelines of the given durations that a FIFO pool
of `w` workers ever runs simultaneously. -/
def maxConcurrent (w : Nat) (durations : List Nat) : Nat :=
  poolSim w (durations.foldl (· + ·) 0 + durations.length + 1) durations []

/-! ## Example inputs used by the claim theorems -/

def fileNestedEx : JavaFile :=
  { stem := "X", path := ⟨true, ["r", "X.java"]⟩, pkg := some "p",
    classes := [⟨"Outer", 0, 200⟩, ⟨"Inner", 50, 150⟩],
    methods := [⟨"m", 60, 3, 6, []⟩] }

def fileFooEx : JavaFile :=
  { stem := "Foo", path := ⟨true, ["r", "Foo.java"]⟩, pkg := none,
    classes := [], methods := [⟨"bar", 5, 1, 2, []⟩] }

/-! ## C4 — fqn construction -/

/-- C4: for every method or constructor declaration, the fqn is the dot-join
of the declared package (if any), the full outer-to-inner stack of enclosing
classes (every class node whose byte range contains the declaration's start,
in capture order), and the simple name; package `p` with `Outer` containing
`Inner` containing method `m` yields `p.Outer.Inner.m`, and a file `Foo`
with no package and a method `bar` outside any class yields `Foo.bar` via
the file-base-name fallback; a packaged declaration with no enclosing class
(e.g. an interface or enum method, which `CLASS_QUERY` does not capture)
yields `p.stem.name` via the same fallback. -/
theorem fqn_is_join_of_package_nesting_and_name :
    (∀ (off : Nat) (nodes : List ClsNode),
        class_stack off nodes =
          (nodes.filter
            (fun c => decide (c.start_byte ≤ off ∧ off ≤ c.end_byte))).map ClsNode.name) ∧
    (∀ (p : String) (classes : List String) (stem name : String),
        p ≠ "" → classes ≠ [] →
        mkFqn (some p) classes stem name =
          String.intercalate "." (p :: (classes ++ [name]))) ∧
    (∀ (classes : List String) (stem name : String), classes ≠ [] →
        mkFqn none classes stem name = String.intercalate "." (classes ++ [name])) ∧
    (∀ (stem name : String),
        mkFqn none [] stem name = String.intercalate "." [stem, name]) ∧
    methodFqn fileNestedEx ⟨"m", 60, 3, 6, []⟩ = "p.Outer.Inner.m" ∧
    methodFqn fileFooEx ⟨"bar", 5, 1, 2, []⟩ = "Foo.bar" ∧
    (∀ (p stem name : String), p ≠ "" →
        mkFqn (some p) [] stem name = String.intercalate "." [p, stem, name]) := by
  refine ⟨?_, ?_, ?_, ?_, by decide, by decide, ?_⟩
  · intro off nodes
    induction nodes with
    | nil => rfl
    | cons c rest ih =>
        by_cases h : c.start_byte ≤ off ∧ off ≤ c.end_byte
        · simp [class_stack, h, ih]
        · simp [class_stack, h, ih]
  · intro p classes stem name hp hc
    simp [mkFqn, hp, hc]
  · intro classes stem name hc
    simp [mkFqn, hc]
  · intro stem name
    simp [mkFqn]
  · intro p stem name hp
    simp [mkFqn, hp]

/-- Witness for C4 at concrete inputs, covering a nested packaged method,
the no-package no-class fallback, and a packaged declaration with no
enclosing class. -/
theorem fqn_is_join_of_package_nesting_and_name_witness :
    mkFqn (some "p") ["Outer", "Inner"] "X" "m" = "p.Outer.Inner.m" ∧
    mkFqn none [] "Foo" "bar" = "Foo.bar" ∧
    mkFqn (some "p") [] "Foo" "bar" = "p.Foo.bar" := by
  refine ⟨?_, ?_, ?_⟩
  · have h := fqn_is_join_of_package_nesting_and_name.2.1 "p" ["Outer", "Inner"] "X" "m"
      (by decide) (by decide)
    rw [h]
    decide
  · have h := fqn_is_join_of_package_nesting_and_name.2.2.2.1 "Foo" "bar"
    rw [h]
    decide
  · have h := fqn_is_join_of_package_nesting_and_name.2.2.2.2.2.2 "p" "Foo" "bar"
      (by decide)
    rw [h]
    decide

/-! ## C9 — project-relative path helper -/

/-- C9: for every root and path, `rel` returns the root-relative path when
the path lies under the root (same anchor, root components a prefix), and
otherwise returns the unchanged string form of the path without raising;
files outside the root therefore keep their absolute string form. -/
theorem rel_relative_under_root_else_unchanged :
    ∀ (root p : PPath),
      (p.absolute = root.absolute → root.parts.isPrefixOf p.parts = true →
        rel root p = pathStr ⟨false, p.parts.drop root.parts.length⟩) ∧
      (¬(p.absolute = root.absolute ∧ root.parts.isPrefixOf p.parts = true) →
        rel root p = pathStr p) := by
  intro root p
  constructor
  · intro h1 h2
    simp [rel, relative_to, h1, h2]
  · intro h
    unfold rel relative_to
    rw [if_neg h]

/-- Witness for C9: a file under the root becomes root-relative, a file
outside the root keeps its absolute string form. -/
theorem rel_relative_under_root_else_unchanged_witness :
    rel ⟨true, ["home", "r"]⟩ ⟨true, ["home", "r", "A.java"]⟩ = "A.java" ∧
    rel ⟨true, ["home", "r"]⟩ ⟨true, ["tmp", "B.java"]⟩ = "/tmp/B.java" := by
  constructor
  · have h := (rel_relative_under_root_else_unchanged ⟨true, ["home", "r"]⟩
      ⟨true, ["home", "r", "A.java"]⟩).1 (by decide) (by decide)
    rw [h]
    decide
  · have h := (rel_relative_under_root_else_unchanged ⟨true, ["home", "r"]⟩
      ⟨true, ["tmp", "B.java"]⟩).2 (by decide)
    rw [h]
    decide

/-! ## C10 — missing multilspy in semantic mode -/

/-- C10: when semantic mode is requested but multilspy is unavailable, the
run terminates with the install-hint error after indexing completes (the
trace holds exactly the indexing event, no lookup event) and produces no
graph — it never degrades to syntactic-mode output. -/
theorem lsp_unavailable_exits_after_indexing_before_lookup :
    ∀ (root : PPath) (files : List JavaFile) (resp : String → Nat → Nat → LookupResp),
      (extract_run true root files true false resp).1 = [PEvent.indexed] ∧
      (extract_run true root files true false resp).2 =
        .error "--lsp requested but multilspy not installed. Run: pip install multilspy" ∧
      exceptIsOk (extract_run true root files true false resp).2 = false := by
  intro root files resp
  refine ⟨rfl, rfl, rfl⟩

/-- Witness for C10 at a concrete project. -/
theorem lsp_unavailable_exits_after_indexing_before_lookup_witness :
    (extract_run true ⟨true, ["r"]⟩ [fileFooEx] true false (fun _ _ _ => LookupResp.exn)).1 =
      [PEvent.indexed] ∧
    (extract_run true ⟨true, ["r"]⟩ [fileFooEx] true false (fun _ _ _ => LookupResp.exn)).2 =
      .error "--lsp requested but multilspy not installed. Run: pip install multilspy" ∧
    exceptIsOk
      (extract_run true ⟨true, ["r"]⟩ [fileFooEx] true false (fun _ _ _ => LookupResp.exn)).2 =
      false :=
  lsp_unavailable_exits_after_indexing_before_lookup ⟨true, ["r"]⟩ [fileFooEx]
    (fun _ _ _ => LookupResp.exn)

/-! ## C3 — concurrency bound -/

/-- C3 (code bug): the pool built from `--max-workers` is never passed to
`async_extract_java_project_call_graph`, so every task runs on the
module-level default executor of 4 workers; with 5 overlapping project
pipelines and `--max-workers 2` the code runs 4 pipelines simultaneously,
exceeding the claimed bound of 2. -/
theorem max_workers_flag_unused_default_pool_bounds_concurrency :
    (∀ n : Nat, mainSubmitPool n = defaultAsyncExtractPool) ∧
    (mainPoolFromArgs 2).max_workers = 2 ∧
    (mainSubmitPool 2).max_workers = 4 ∧
    maxConcurrent (mainSubmitPool 2).max_workers [2, 2, 2, 2, 2] = 4 ∧
    2 < maxConcurrent (mainSubmitPool 2).max_workers [2, 2, 2, 2, 2] := by
  refine ⟨fun n => rfl, rfl, rfl, by decide, by decide⟩

/-! ## C5 — self-recursive function -/

/-- A project consisting of one file, package `a`, class `b`, method `c`
whose body calls `c`. -/
def selfRecFile : JavaFile :=
  { stem := "A", path := ⟨true, ["r", "A.java"]⟩, pkg := some "a",
    classes := [⟨"b", 0, 100⟩],
    methods := [⟨"c", 10, 1, 5, [⟨"c", 2, 4⟩]⟩] }

/-- Counterexample to C5: in syntactic mode a self-recursive `a.b.c` is
recorded under the callee's simple name `c`, so the emitted graph has two
nodes and its only edge is `a.b.c → c`, not a self-loop. -/
theorem self_recursion_syntactic_not_self_loop :
    ((build_graph (collect_infos ⟨true, ["r"]⟩ [selfRecFile] false)).nodes.map Prod.fst =
      ["a.b.c", "c"]) ∧
    (build_graph (collect_infos ⟨true, ["r"]⟩ [selfRecFile] false)).nodes.length = 2 ∧
    (build_graph (collect_infos ⟨true, ["r"]⟩ [selfRecFile] false)).edges = [("a.b.c", "c")] ∧
    ("a.b.c", "a.b.c") ∉ (build_graph (collect_infos ⟨true, ["r"]⟩ [selfRecFile] false)).edges := by
  refine ⟨by decide, by decide, by decide, by decide⟩

/-- C5 amended: in semantic mode, when the self call resolves to the
function's own declaration (so the record's calls are exactly its own fqn
`a.b.c`), the graph has exactly one node and exactly one self-loop edge —
as the full semantic pipeline on `selfRecFile` exhibits; in syntactic mode
the call is recorded under the simple name instead (two nodes, edge
`a.b.c → c`). -/
theorem self_recursion_resolved_single_node_self_loop :
    (∀ (info : FunctionInfo), info.fqn = "a.b.c" → info.calls = ["a.b.c"] →
      (build_graph [("a.b.c", info)]).nodes.map Prod.fst = ["a.b.c"] ∧
      (build_graph [("a.b.c", info)]).nodes.length = 1 ∧
      (build_graph [("a.b.c", info)]).edges = [("a.b.c", "a.b.c")]) ∧
    (build_graph (resolve_with_lsp ⟨true, ["r"]⟩
        (fun _ _ _ => LookupResp.res [⟨some "file:///r/A.java", none, some ⟨some 2⟩, none⟩])
        (collect_infos ⟨true, ["r"]⟩ [selfRecFile] true))).nodes.map Prod.fst =
      ["a.b.c"] ∧
    (build_graph (resolve_with_lsp ⟨true, ["r"]⟩
        (fun _ _ _ => LookupResp.res [⟨some "file:///r/A.java", none, some ⟨some 2⟩, none⟩])
        (collect_infos ⟨true, ["r"]⟩ [selfRecFile] true))).edges = [("a.b.c", "a.b.c")] := by
  refine ⟨?_, by decide, by decide⟩
  intro info h1 h2
  simp [build_graph, buildStep, h1, h2, addNodeMeta, addEdge, addNodeBare]

/-- Witness for the amended C5 at a concrete resolved record. -/
theorem self_recursion_resolved_single_node_self_loop_witness :
    (build_graph [("a.b.c", ⟨"a.b.c", "A.java", 1, 5, ["a.b.c"], []⟩)]).nodes.map
        Prod.fst = ["a.b.c"] ∧
    (build_graph [("a.b.c", ⟨"a.b.c", "A.java", 1, 5, ["a.b.c"], []⟩)]).nodes.length = 1 ∧
    (build_graph [("a.b.c", ⟨"a.b.c", "A.java", 1, 5, ["a.b.c"], []⟩)]).edges =
      [("a.b.c", "a.b.c")] :=
  self_recursion_resolved_single_node_self_loop.1 ⟨"a.b.c", "A.java", 1, 5, ["a.b.c"], []⟩
    rfl rfl

/-! ## C6 — interval lookup tie-break -/

/-- Modelled from the spec's words, for comparison only: the fqn of a
smallest (innermost, by interval length) containing interval among the
file's entries. -/
def smallestContainingFqn (entries : List ((Nat × Nat) × String)) (line0 : Nat) :
    Option String :=
  match entries.filter (fun e => decide (e.1.1 ≤ line0 ∧ line0 ≤ e.1.2)) with
  | [] => none
  | e :: rest =>
      some ((rest.foldl
        (fun best e' => if e'.1.2 - e'.1.1 < best.1.2 - best.1.1 then e' else best) e).2)

def infoOuterEx : FunctionInfo :=
  { fqn := "p.C.big", file_path := "C.java", start_line := 0, end_line := 10 }

def infoInnerEx : FunctionInfo :=
  { fqn := "p.C.small", file_path := "C.java", start_line := 2, end_line := 5 }

def idxNestedEx : List (PPath × List ((Nat × Nat) × String)) :=
  buildDefIndex ⟨true, ["r"]⟩ [("p.C.big", infoOuterEx), ("p.C.small", infoInnerEx)]

/-- Counterexample to C6: with a declaration interval `(0,10)` indexed
before a nested interval `(2,5)` in the same file, line 3 lies in both but
`locate_fqn` answers the first-indexed (outer) fqn, not the smallest
(innermost) one. -/
theorem locate_fqn_first_indexed_not_innermost :
    locate_fqn idxNestedEx (joinPath ⟨true, ["r"]⟩ "C.java") 3 = some "p.C.big" ∧
    smallestContainingFqn ((dictGet idxNestedEx (joinPath ⟨true, ["r"]⟩ "C.java")).getD []) 3 =
      some "p.C.small" ∧
    ("p.C.big" : String) ≠ "p.C.small" := by
  refine ⟨by decide, by decide, by decide⟩

/-- C6 amended: the interval lookup returns the fqn of the first containing
interval in the per-file index's insertion order (the order the records were
indexed), which need not be the innermost: `findInterval` answers `some fqn`
exactly when the entry list splits as `pre ++ e :: post` with `e` containing
the line, `e` carrying `fqn`, and no entry of `pre` containing the line. -/
theorem findInterval_first_containing_in_insertion_order :
    ∀ (entries : List ((Nat × Nat) × String)) (line0 : Nat) (fqn : String),
      findInterval line0 entries = some fqn ↔
        ∃ pre e post, entries = pre ++ e :: post ∧
          (e.1.1 ≤ line0 ∧ line0 ≤ e.1.2) ∧ e.2 = fqn ∧
          ∀ e' ∈ pre, ¬(e'.1.1 ≤ line0 ∧ line0 ≤ e'.1.2) := by
  intro entries line0 fqn
  induction entries with
  | nil =>
      simp [findInterval]
  | cons hd tl ih =>
      by_cases hc : hd.1.1 ≤ line0 ∧ line0 ≤ hd.1.2
      · simp only [findInterval, if_pos hc]
        constructor
        · intro h
          exact ⟨[], hd, tl, rfl, hc, Option.some.inj h, by simp⟩
        · rintro ⟨pre, e, post, hsplit, hce, hfqn, hpre⟩
          cases pre with
          | nil =>
              simp at hsplit
              rw [← hfqn, hsplit.1]
          | cons q qre =>
              have hq : q = hd := by
                have := congrArg (fun l => l.head?) hsplit
                simpa using this.symm
              exact absurd hc (by simpa [hq] using hpre q (by simp))
      · simp only [findInterval, if_neg hc]
        rw [ih]
        constructor
        · rintro ⟨pre, e, post, hsplit, hce, hfqn, hpre⟩
          refine ⟨hd :: pre, e, post, by simp [hsplit], hce, hfqn, ?_⟩
          intro e' he'
          rcases List.mem_cons.mp he' with h | h
          · rw [h]; exact hc
          · exact hpre e' h
        · rintro ⟨pre, e, post, hsplit, hce, hfqn, hpre⟩
          cases pre with
          | nil =>
              simp at hsplit
              exact absurd (hsplit.1 ▸ hce) hc
          | cons q qre =>
              have hq : q = hd ∧ tl = qre ++ e :: post := by
                constructor
                · have := congrArg (fun l => l.head?) hsplit
                  simpa using this.symm
                · have := congrArg List.tail hsplit
                  simpa using this
              exact ⟨qre, e, post, hq.2, hce, hfqn, fun e' he' => hpre e' (by simp [he'])⟩

/-- Witness for the amended C6 at a concrete index. -/
theorem findInterval_first_containing_in_insertion_order_witness :
    ∃ pre e post,
      ([((0, 10), "p.C.big"), ((2, 5), "p.C.small")] :
          List ((Nat × Nat) × String)) = pre ++ e :: post ∧
      (e.1.1 ≤ 3 ∧ 3 ≤ e.1.2) ∧ e.2 = "p.C.big" ∧
      ∀ e' ∈ pre, ¬(e'.1.1 ≤ 3 ∧ 3 ≤ e'.1.2) :=
  (findInterval_first_containing_in_insertion_order
    [((0, 10), "p.C.big"), ((2, 5), "p.C.small")] 3 "p.C.big").mp (by decide)

/-! ## C2 — fallback vs. dropped call sites -/

def pendInfoEx : FunctionInfo :=
  { fqn := "p.C.m", file_path := "C.java", start_line := 0, end_line := 9,
    unresolved_sites := [⟨"helper", ⟨true, ["r", "C.java"]⟩, 3, 7⟩] }

/-- Counterexample to C2: a pending call site whose definition lookup raises
an exception is dropped — after resolution the record's `calls` is empty, no
`Unresolved("helper")` fallback is recorded (and the pending list is
cleared), so a call site can be lost. -/
theorem lookup_exception_drops_call_site :
    resolve_with_lsp ⟨true, ["r"]⟩ (fun _ _ _ => LookupResp.exn) [("p.C.m", pendInfoEx)] =
      [("p.C.m", ⟨"p.C.m", "C.java", 0, 9, [], []⟩)] ∧
    "helper" ∉ (resolveInfo (buildDefIndex ⟨true, ["r"]⟩ [("p.C.m", pendInfoEx)])
        ⟨true, ["r"]⟩ (fun _ _ _ => LookupResp.exn) pendInfoEx).calls := by
  refine ⟨by decide, by decide⟩

/-- C2 amended: a pending site yields a call target only when the first
returned location carries a `file://` URI and a start line; then the site
becomes `Resolved(fqn)` if `(file, line)` maps to a known interval and
`Unresolved(simple_name)` otherwise.  On a lookup exception, an empty
result, a non-`file` URI, or a missing start line the site is dropped (no
call target is added).  Pending sites are cleared in every case. -/
theorem resolution_fallback_only_with_located_line :
    ∀ (idx : List (PPath × List ((Nat × Nat) × String))) (cs : CallSite)
      (loc : Loc) (rest : List Loc) (u : String) (rng : LocRange) (line0 : Nat),
      processSite idx LookupResp.exn cs = none ∧
      processSite idx (LookupResp.res []) cs = none ∧
      (pyOrStr loc.uri loc.targetUri = some u → strStartsWith u "file://" = true →
        loc.range.orElse (fun _ => loc.targetRange) = some rng →
        rng.start_line = some line0 →
        processSite idx (LookupResp.res (loc :: rest)) cs =
          some ((locate_fqn idx (parseUriPath u) line0).getD cs.target_simple)) ∧
      (pyOrStr loc.uri loc.targetUri = none →
        processSite idx (LookupResp.res (loc :: rest)) cs = none) ∧
      (pyOrStr loc.uri loc.targetUri = some u → strStartsWith u "file://" = false →
        processSite idx (LookupResp.res (loc :: rest)) cs = none) ∧
      (pyOrStr loc.uri loc.targetUri = some u → strStartsWith u "file://" = true →
        loc.range.orElse (fun _ => loc.targetRange) = none →
        processSite idx (LookupResp.res (loc :: rest)) cs = none) ∧
      (pyOrStr loc.uri loc.targetUri = some u → strStartsWith u "file://" = true →
        loc.range.orElse (fun _ => loc.targetRange) = some rng →
        rng.start_line = none →
        processSite idx (LookupResp.res (loc :: rest)) cs = none) ∧
      ∀ (root : PPath) (resp : String → Nat → Nat → LookupResp)
        (infos : List (String × FunctionInfo)) (p : String × FunctionInfo),
        p ∈ resolve_with_lsp root resp infos → p.2.unresolved_sites = [] := by
  intro idx cs loc rest u rng line0
  refine ⟨rfl, rfl, ?_, ?_, ?_, ?_, ?_, ?_⟩
  · intro h1 h2 h3 h4
    simp [processSite, h1, h2, h3, h4]
  · intro h1
    simp [processSite, h1]
  · intro h1 h2
    simp [processSite, h1, h2]
  · intro h1 h2 h3
    simp [processSite, h1, h2, h3]
  · intro h1 h2 h3 h4
    simp [processSite, h1, h2, h3, h4]
  · intro root resp infos p hp
    rcases List.mem_map.mp hp with ⟨q, _, hq⟩
    rw [← hq]
    rfl

/-- Witness for the amended C2: a located line inside a known interval
resolves to the fqn, a located line outside every interval falls back to the
simple name. -/
theorem resolution_fallback_only_with_located_line_witness :
    processSite (buildDefIndex ⟨true, ["r"]⟩ [("p.C.m", pendInfoEx)])
        (LookupResp.res [⟨some "file:///r/C.java", none, some ⟨some 3⟩, none⟩])
        ⟨"helper", ⟨true, ["r", "C.java"]⟩, 3, 7⟩ = some "p.C.m" ∧
    processSite (buildDefIndex ⟨true, ["r"]⟩ [("p.C.m", pendInfoEx)])
        (LookupResp.res [⟨some "file:///r/C.java", none, some ⟨some 77⟩, none⟩])
        ⟨"helper", ⟨true, ["r", "C.java"]⟩, 3, 7⟩ = some "helper" := by
  constructor
  · have h := (resolution_fallback_only_with_located_line
      (buildDefIndex ⟨true, ["r"]⟩ [("p.C.m", pendInfoEx)])
      ⟨"helper", ⟨true, ["r", "C.java"]⟩, 3, 7⟩
      ⟨some "file:///r/C.java", none, some ⟨some 3⟩, none⟩ [] "file:///r/C.java"
      ⟨some 3⟩ 3).2.2.1 (by decide) (by decide) (by decide) (by decide)
    rw [h]
    decide
  · have h := (resolution_fallback_only_with_located_line
      (buildDefIndex ⟨true, ["r"]⟩ [("p.C.m", pendInfoEx)])
      ⟨"helper", ⟨true, ["r", "C.java"]⟩, 3, 7⟩
      ⟨some "file:///r/C.java", none, some ⟨some 77⟩, none⟩ [] "file:///r/C.java"
      ⟨some 77⟩ 77).2.2.1 (by decide) (by decide) (by decide) (by decide)
    rw [h]
    decide

/-! ## C8 — global completion barrier -/

/-- Counterexample to C8: in the run where project 0 finishes first and
project 1 finishes last, project 0's output write (trace index 2) still
happens only after project 1's completion (trace index 1): every write waits
behind the `asyncio.gather` barrier over all projects. -/
theorem output_write_waits_for_global_barrier :
    (multiTrace [0, 1] 2).indexOf (MEvent.finish 0) = 0 ∧
    (multiTrace [0, 1] 2).indexOf (MEvent.finish 1) = 1 ∧
    (multiTrace [0, 1] 2).indexOf (MEvent.write 0) = 2 ∧
    (multiTrace [0, 1] 2).indexOf (MEvent.finish 1) <
      (multiTrace [0, 1] 2).indexOf (MEvent.write 0) := by
  refine ⟨by decide, by decide, by decide, by decide⟩

/-- C8 amended: no project's output is written until every project's
pipeline has completed — in every run trace, every write event comes
strictly after every finish event; outputs then follow in submission
order. -/
theorem all_writes_after_all_finishes :
    ∀ (order : List Nat) (n i j k m : Nat),
      (multiTrace order n).get? k = some (MEvent.write i) →
      (multiTrace order n).get? m = some (MEvent.finish j) →
      m < k := by
  intro order n i j k m hk hm
  have hlen : (order.map MEvent.finish).length = order.length := by
    simp
  by_cases h1 : k < order.length
  · exfalso
    rw [multiTrace, List.get?_append (by rw [hlen]; exact h1), List.get?_map] at hk
    cases ho : order.get? k with
    | none => rw [ho] at hk; simp at hk
    | some a => rw [ho] at hk; simp at hk
  · push_neg at h1
    by_cases h2 : m < order.length
    · exact lt_of_lt_of_le h2 h1
    · exfalso
      push_neg at h2
      rw [multiTrace, List.get?_append_right (by rw [hlen]; exact h2), List.get?_map] at hm
      cases ho : (List.range n).get? (m - (order.map MEvent.finish).length) with
      | none => rw [ho] at hm; simp at hm
      | some a => rw [ho] at hm; simp at hm

/-- Witness for the amended C8 at a concrete two-project run. -/
theorem all_writes_after_all_finishes_witness :
    (multiTrace [0, 1] 2).get? 2 = some (MEvent.write 0) ∧
    (multiTrace [0, 1] 2).get? 1 = some (MEvent.finish 1) ∧
    (1 : Nat) < 2 :=
  ⟨by decide, by decide,
    all_writes_after_all_finishes [0, 1] 2 0 1 2 1 (by decide) (by decide)⟩

/-! ## C1 — failure isolation in multi-project mode -/

/-- Counterexample to C1: with two healthy projects and a write failure on
the first, the dispatch loop `sys.exit`s and the second project's output is
never written; and with a pipeline failure in the first project, the
`asyncio.gather` exception propagates before any dispatch, so even the
healthy second project gets no output. -/
theorem one_failure_prevents_other_outputs :
    multiMain (fun _ => Except.ok ⟨[], []⟩) (fun _ => true) (fun n => n != "p1")
      ["p1", "p2"] = [] ∧
    multiMain (fun p => if p = "p1" then Except.error "boom" else Except.ok ⟨[], []⟩)
      (fun _ => true) (fun _ => true) ["p1", "p2"] = [] := by
  refine ⟨by decide, by decide⟩

theorem gather_error (pipe : String → Except String Graph) :
    ∀ (projects : List String) (p e : String), p ∈ projects → pipe p = .error e →
      ∃ e', gather (projects.map (fun q => (pipe q).map (fun g => (q, g)))) = .error e' := by
  intro projects
  induction projects with
  | nil => intro p e hp _; cases hp
  | cons q rest ih =>
      intro p e hp he
      cases hq : pipe q with
      | error e2 =>
          refine ⟨e2, ?_⟩
          simp only [List.map_cons]
          rw [show (pipe q).map (fun g => (q, g)) = Except.error e2 by rw [hq]; rfl]
          rfl
      | ok g =>
          rcases List.mem_cons.mp hp with h | h
          · subst h
            rw [he] at hq
            cases hq
          · obtain ⟨e', hg⟩ := ih p e h he
            refine ⟨e', ?_⟩
            simp only [List.map_cons]
            rw [show (pipe q).map (fun g => (q, g)) = Except.ok (q, g) by rw [hq]; rfl]
            calc gather (Except.ok (q, g) :: rest.map (fun r => (pipe r).map (fun g => (r, g))))
                = (gather (rest.map (fun r => (pipe r).map (fun g => (r, g))))).map
                    ((q, g) :: ·) := rfl
              _ = Except.error e' := by rw [hg]; rfl

theorem gather_ok (pipe : String → Except String Graph) :
    ∀ projects : List String, (∀ p ∈ projects, ∃ g, pipe p = .ok g) →
      ∃ res, gather (projects.map (fun q => (pipe q).map (fun g => (q, g)))) = .ok res ∧
        res.map Prod.fst = projects := by
  intro projects
  induction projects with
  | nil => intro _; exact ⟨[], rfl, rfl⟩
  | cons q rest ih =>
      intro hall
      obtain ⟨g, hq⟩ := hall q (by simp)
      obtain ⟨res, hg, hfst⟩ := ih (fun p hp => hall p (by simp [hp]))
      refine ⟨(q, g) :: res, ?_, by simp [hfst]⟩
      simp only [List.map_cons]
      rw [show (pipe q).map (fun g => (q, g)) = Except.ok (q, g) by rw [hq]; rfl]
      calc gather (Except.ok (q, g) :: rest.map (fun r => (pipe r).map (fun g => (r, g))))
          = (gather (rest.map (fun r => (pipe r).map (fun g => (r, g))))).map
              ((q, g) :: ·) := rfl
        _ = Except.ok ((q, g) :: res) := by rw [hg]; rfl

theorem dispatchOutputs_eq_takeWhile (mk wo : String → Bool) :
    ∀ res : List (String × Graph),
      dispatchOutputs mk wo res = (res.map Prod.fst).takeWhile wo
  | [] => rfl
  | (n, g) :: rest => by
      by_cases hw : wo n
      · simp [dispatchOutputs, hw, List.takeWhile_cons,
          dispatchOutputs_eq_takeWhile mk wo rest]
      · simp [dispatchOutputs, hw, List.takeWhile_cons]

/-- C1 amended: a directory-creation failure is reported and isolated, but a
pipeline failure in any project prevents every project's output from being
written, and an output-write failure terminates the run so that exactly the
projects dispatched before it have outputs (`takeWhile` of the write
successes). -/
theorem multi_project_failure_propagation :
    ∀ (pipe : String → Except String Graph) (mkdirOk writeOk : String → Bool)
      (projects : List String),
      ((∃ p ∈ projects, ∃ e, pipe p = .error e) →
        multiMain pipe mkdirOk writeOk projects = []) ∧
      ((∀ p ∈ projects, ∃ g, pipe p = .ok g) →
        multiMain pipe mkdirOk writeOk projects = projects.takeWhile writeOk) ∧
      multiMain pipe mkdirOk writeOk projects =
        multiMain pipe (fun _ => true) writeOk projects := by
  intro pipe mkdirOk writeOk projects
  refine ⟨?_, ?_, ?_⟩
  · rintro ⟨p, hp, e, he⟩
    obtain ⟨e', hg⟩ := gather_error pipe projects p e hp he
    simp [multiMain, hg]
  · intro hall
    obtain ⟨res, hg, hfst⟩ := gather_ok pipe projects hall
    rw [multiMain, hg, ← hfst]
    exact dispatchOutputs_eq_takeWhile mkdirOk writeOk res
  · rw [multiMain, multiMain]
    cases gather (projects.map (fun q => (pipe q).map (fun g => (q, g)))) with
    | error e => rfl
    | ok res =>
        show dispatchOutputs mkdirOk writeOk res = dispatchOutputs (fun _ => true) writeOk res
        rw [dispatchOutputs_eq_takeWhile, dispatchOutputs_eq_takeWhile]

/-- Witness for the amended C1: all pipelines succeed and the write of the
second of three projects fails, so exactly the first project's output is
written; a failing pipeline alone yields no outputs at all. -/
theorem multi_project_failure_propagation_witness :
    multiMain (fun _ => Except.ok ⟨[], []⟩) (fun _ => true) (fun n => n != "b")
      ["a", "b", "c"] = ["a"] ∧
    multiMain (fun _ => Except.error "x") (fun _ => true) (fun _ => true) ["a"] = [] := by
  constructor
  · have h := (multi_project_failure_propagation (fun _ => Except.ok ⟨[], []⟩)
      (fun _ => true) (fun n => n != "b") ["a", "b", "c"]).2.1
      (fun p _ => ⟨⟨[], []⟩, rfl⟩)
    rw [h]
    decide
  · exact (multi_project_failure_propagation (fun _ => Except.error "x")
      (fun _ => true) (fun _ => true) ["a"]).1 ⟨"a", by simp, "x", rfl⟩

/-! ## C7 — one node per fqn, last declaration wins -/

/-- The sequence of `infos[fqn] = info` assignments of `collect_infos`, in
indexing order. -/
def declSeq (root : PPath) (files : List JavaFile) (use_lsp : Bool) :
    List (String × FunctionInfo) :=
  files.flatMap (fun f => f.methods.map (fun m =>
    ((methodInfo root f m use_lsp).fqn, methodInfo root f m use_lsp)))

/-- Replaying a sequence of dict assignments into an empty dict. -/
def insertAll (l : List (String × FunctionInfo)) : List (String × FunctionInfo) :=
  l.foldl (fun d p => dictInsert p.1 p.2 d) []

section DictLemmas

variable {κ ν : Type} [DecidableEq κ]

theorem dictGet_dictInsert_self (k : κ) (v : ν) (d : List (κ × ν)) :
    dictGet (dictInsert k v d) k = some v := by
  induction d with
  | nil =>
      rw [dictInsert, dictGet, if_pos rfl]
  | cons p rest ih =>
      obtain ⟨k', v'⟩ := p
      by_cases h : k' = k
      · rw [dictInsert, if_pos h, dictGet, if_pos rfl]
      · rw [dictInsert, if_neg h, dictGet, if_neg h]
        exact ih

theorem dictGet_dictInsert_ne (k k' : κ) (v : ν) (d : List (κ × ν)) (h : k' ≠ k) :
    dictGet (dictInsert k v d) k' = dictGet d k' := by
  induction d with
  | nil =>
      rw [dictInsert]
      simp [dictGet, Ne.symm h]
  | cons p rest ih =>
      obtain ⟨k0, v0⟩ := p
      by_cases h0 : k0 = k
      · subst h0
        rw [dictInsert, if_pos rfl, dictGet, if_neg (Ne.symm h), dictGet,
          if_neg (Ne.symm h)]
      · rw [dictInsert, if_neg h0, dictGet, dictGet]
        by_cases hk : k0 = k'
        · rw [if_pos hk, if_pos hk]
        · rw [if_neg hk, if_neg hk]
          exact ih

theorem dictInsert_map_fst (k : κ) (v : ν) (d : List (κ × ν)) :
    (dictInsert k v d).map Prod.fst =
      if k ∈ d.map Prod.fst then d.map Prod.fst else d.map Prod.fst ++ [k] := by
  induction d with
  | nil => simp [dictInsert]
  | cons p rest ih =>
      obtain ⟨k0, v0⟩ := p
      by_cases h0 : k0 = k
      · subst h0
        rw [dictInsert, if_pos rfl]
        simp
      · rw [dictInsert, if_neg h0]
        simp only [List.map_cons]
        rw [ih]
        by_cases hm : k ∈ rest.map Prod.fst
        · rw [if_pos hm, if_pos (by exact List.mem_cons.mpr (Or.inr hm))]
        · have hnotin : k ∉ k0 :: rest.map Prod.fst := by
            intro hc
            rcases List.mem_cons.mp hc with hc | hc
            · exact h0 hc.symm
            · exact hm hc
          rw [if_neg hm, if_neg hnotin]
          simp

theorem dictInsert_nodup_fst (k : κ) (v : ν) (d : List (κ × ν))
    (h : (d.map Prod.fst).Nodup) : ((dictInsert k v d).map Prod.fst).Nodup := by
  rw [dictInsert_map_fst]
  by_cases hm : k ∈ d.map Prod.fst
  · simpa [hm] using h
  · simp only [hm, if_false]
    rw [List.nodup_append]
    refine ⟨h, List.nodup_singleton k, ?_⟩
    intro a ha hak
    rw [List.mem_singleton] at hak
    exact hm (hak ▸ ha)

theorem mem_dictInsert (k : κ) (v : ν) (d : List (κ × ν)) (p : κ × ν)
    (hp : p ∈ dictInsert k v d) : p = (k, v) ∨ p ∈ d := by
  induction d with
  | nil => simpa [dictInsert] using hp
  | cons q rest ih =>
      obtain ⟨k0, v0⟩ := q
      by_cases h0 : k0 = k
      · rw [dictInsert, if_pos h0] at hp
        rcases List.mem_cons.mp hp with h | h
        · exact Or.inl h
        · exact Or.inr (List.mem_cons.mpr (Or.inr h))
      · rw [dictInsert, if_neg h0] at hp
        rcases List.mem_cons.mp hp with h | h
        · exact Or.inr (List.mem_cons.mpr (Or.inl h))
        · rcases ih h with h' | h'
          · exact Or.inl h'
          · exact Or.inr (List.mem_cons.mpr (Or.inr h'))

theorem dictGet_mem (d : List (κ × ν)) (k : κ) (v : ν)
    (h : dictGet d k = some v) : (k, v) ∈ d := by
  induction d with
  | nil => simp [dictGet] at h
  | cons p rest ih =>
      obtain ⟨k0, v0⟩ := p
      by_cases h0 : k0 = k
      · subst h0
        rw [dictGet, if_pos rfl] at h
        exact List.mem_cons.mpr (Or.inl (by rw [Option.some.inj h]))
      · rw [dictGet, if_neg h0] at h
        exact List.mem_cons.mpr (Or.inr (ih h))

theorem dictGet_eq_none_of_not_mem (d : List (κ × ν)) (k : κ)
    (h : k ∉ d.map Prod.fst) : dictGet d k = none := by
  induction d with
  | nil => rfl
  | cons p rest ih =>
      obtain ⟨k0, v0⟩ := p
      simp only [List.map_cons, List.mem_cons] at h
      push_neg at h
      rw [dictGet, if_neg (Ne.symm h.1)]
      exact ih h.2

theorem dictGet_append (l1 l2 : List (κ × ν)) (k : κ) :
    dictGet (l1 ++ l2) k = (dictGet l1 k).elim (dictGet l2 k) some := by
  induction l1 with
  | nil => rfl
  | cons p rest ih =>
      obtain ⟨k0, v0⟩ := p
      by_cases h0 : k0 = k
      · simp [dictGet, h0]
      · simp [dictGet, h0, ih]

end DictLemmas

theorem insertAll_aux_nodup (l : List (String × FunctionInfo)) :
    ∀ d : List (String × FunctionInfo), (d.map Prod.fst).Nodup →
      (((l.foldl (fun d p => dictInsert p.1 p.2 d) d)).map Prod.fst).Nodup := by
  induction l with
  | nil => intro d h; exact h
  | cons p rest ih =>
      intro d h
      exact ih (dictInsert p.1 p.2 d) (dictInsert_nodup_fst p.1 p.2 d h)

theorem insertAll_nodup (l : List (String × FunctionInfo)) :
    ((insertAll l).map Prod.fst).Nodup :=
  insertAll_aux_nodup l [] List.nodup_nil

theorem mem_insertAll_aux (l : List (String × FunctionInfo)) :
    ∀ (d : List (String × FunctionInfo)) (p : String × FunctionInfo),
      p ∈ l.foldl (fun d q => dictInsert q.1 q.2 d) d → p ∈ l ∨ p ∈ d := by
  induction l with
  | nil => intro d p hp; exact Or.inr hp
  | cons q rest ih =>
      intro d p hp
      rcases ih (dictInsert q.1 q.2 d) p hp with h | h
      · exact Or.inl (List.mem_cons.mpr (Or.inr h))
      · rcases mem_dictInsert q.1 q.2 d p h with h' | h'
        · exact Or.inl (List.mem_cons.mpr (Or.inl h'))
        · exact Or.inr h'

theorem mem_insertAll (l : List (String × FunctionInfo)) (p : String × FunctionInfo)
    (hp : p ∈ insertAll l) : p ∈ l := by
  rcases mem_insertAll_aux l [] p hp with h | h
  · exact h
  · cases h

theorem dictGet_foldl_insert (l : List (String × FunctionInfo)) :
    ∀ (d : List (String × FunctionInfo)) (k : String),
      dictGet (l.foldl (fun d p => dictInsert p.1 p.2 d) d) k =
        (l.reverse.find? (fun p => decide (p.1 = k))).elim (dictGet d k)
          (fun p => some p.2) := by
  induction l with
  | nil => intro d k; rfl
  | cons q rest ih =>
      intro d k
      rw [List.foldl_cons, ih, List.reverse_cons, List.find?_append]
      cases hf : rest.reverse.find? (fun p => decide (p.1 = k)) with
      | some p => rfl
      | none =>
          by_cases hq : q.1 = k
          · subst hq
            simp [List.find?, dictGet_dictInsert_self q.1 q.2 d]
          · simp [List.find?, hq, dictGet_dictInsert_ne q.1 k q.2 d (Ne.symm hq)]

/-! ### Graph-side lemmas -/

theorem updateMeta_map_fst (l : List (String × Option NodeMeta)) (n : String) (m : NodeMeta) :
    (l.map (fun p => if p.1 = n then (n, some m) else p)).map Prod.fst = l.map Prod.fst := by
  induction l with
  | nil => rfl
  | cons p rest ih =>
      by_cases h : p.1 = n
      · simp [h, ih]
      · simp [h, ih]

theorem addNodeBare_nodes_fst (g : Graph) (n : String) :
    (addNodeBare g n).nodes.map Prod.fst =
      if n ∈ g.nodes.map Prod.fst then g.nodes.map Prod.fst
      else g.nodes.map Prod.fst ++ [n] := by
  by_cases h : n ∈ g.nodes.map Prod.fst
  · simp [addNodeBare, h]
  · simp [addNodeBare, h]

theorem addNodeMeta_nodes_fst (g : Graph) (n : String) (m : NodeMeta) :
    (addNodeMeta g n m).nodes.map Prod.fst =
      if n ∈ g.nodes.map Prod.fst then g.nodes.map Prod.fst
      else g.nodes.map Prod.fst ++ [n] := by
  by_cases h : n ∈ g.nodes.map Prod.fst
  · rw [addNodeMeta, if_pos h, if_pos h]
    exact updateMeta_map_fst g.nodes n m
  · rw [addNodeMeta, if_neg h, if_neg h]
    simp

theorem append_one_nodup_fst (l : List String) (n : String) (h : l.Nodup)
    (hm : n ∉ l) : (l ++ [n]).Nodup := by
  rw [List.nodup_append]
  refine ⟨h, List.nodup_singleton n, ?_⟩
  intro a ha hak
  rw [List.mem_singleton] at hak
  exact hm (hak ▸ ha)

theorem addNodeBare_nodup (g : Graph) (n : String)
    (h : (g.nodes.map Prod.fst).Nodup) : ((addNodeBare g n).nodes.map Prod.fst).Nodup := by
  rw [addNodeBare_nodes_fst]
  by_cases hm : n ∈ g.nodes.map Prod.fst
  · simpa [hm] using h
  · simpa [hm] using append_one_nodup_fst _ n h hm

theorem addNodeMeta_nodup (g : Graph) (n : String) (m : NodeMeta)
    (h : (g.nodes.map Prod.fst).Nodup) : ((addNodeMeta g n m).nodes.map Prod.fst).Nodup := by
  rw [addNodeMeta_nodes_fst]
  by_cases hm : n ∈ g.nodes.map Prod.fst
  · simpa [hm] using h
  · simpa [hm] using append_one_nodup_fst _ n h hm

theorem addEdge_nodes (g : Graph) (u v : String) :
    (addEdge g u v).nodes = (addNodeBare (addNodeBare g u) v).nodes := by
  rw [addEdge]
  by_cases h : (u, v) ∈ (addNodeBare (addNodeBare g u) v).edges
  · simp [h]
  · simp [h]

theorem addEdge_nodup (g : Graph) (u v : String)
    (h : (g.nodes.map Prod.fst).Nodup) : ((addEdge g u v).nodes.map Prod.fst).Nodup := by
  rw [addEdge_nodes]
  exact addNodeBare_nodup _ v (addNodeBare_nodup g u h)

theorem addNodeBare_preserve_some (g : Graph) (n k : String) (o : Option NodeMeta)
    (h : dictGet g.nodes k = some o) : dictGet (addNodeBare g n).nodes k = some o := by
  by_cases hm : n ∈ g.nodes.map Prod.fst
  · simpa [addNodeBare, hm] using h
  · rw [addNodeBare]
    simp only [hm, if_false]
    rw [dictGet_append, h]
    rfl

theorem addEdge_preserve_some (g : Graph) (u v k : String) (o : Option NodeMeta)
    (h : dictGet g.nodes k = some o) : dictGet (addEdge g u v).nodes k = some o := by
  rw [addEdge_nodes]
  exact addNodeBare_preserve_some _ v k o (addNodeBare_preserve_some g u k o h)

theorem dictGet_updateMeta_self (l : List (String × Option NodeMeta)) (n : String)
    (m : NodeMeta) (hm : n ∈ l.map Prod.fst) :
    dictGet (l.map (fun p => if p.1 = n then (n, some m) else p)) n = some (some m) := by
  induction l with
  | nil => cases hm
  | cons p rest ih =>
      obtain ⟨a, b⟩ := p
      simp only [List.map_cons]
      by_cases h : a = n
      · rw [show (if (a, b).1 = n then (n, some m) else (a, b)) = (n, some m) from if_pos h]
        rw [dictGet, if_pos rfl]
      · have hm2 : n ∈ a :: rest.map Prod.fst := by simpa using hm
        have hm' : n ∈ rest.map Prod.fst := by
          rcases List.mem_cons.mp hm2 with h' | h'
          · exact absurd h'.symm h
          · exact h'
        rw [show (if (a, b).1 = n then (n, some m) else (a, b)) = (a, b) from if_neg h]
        rw [dictGet, if_neg h]
        exact ih hm'

theorem dictGet_updateMeta_other (l : List (String × Option NodeMeta)) (n k : String)
    (m : NodeMeta) (h : k ≠ n) :
    dictGet (l.map (fun p => if p.1 = n then (n, some m) else p)) k = dictGet l k := by
  induction l with
  | nil => rfl
  | cons p rest ih =>
      obtain ⟨a, b⟩ := p
      simp only [List.map_cons]
      by_cases hp : a = n
      · rw [show (if (a, b).1 = n then (n, some m) else (a, b)) = (n, some m) from if_pos hp]
        rw [dictGet, if_neg (Ne.symm h), dictGet,
          if_neg (show ¬ a = k from fun hc => h (hc ▸ hp))]
        exact ih
      · rw [show (if (a, b).1 = n then (n, some m) else (a, b)) = (a, b) from if_neg hp]
        by_cases hk : a = k
        · rw [dictGet, if_pos hk, dictGet, if_pos hk]
        · rw [dictGet, if_neg hk, dictGet, if_neg hk]
          exact ih

theorem addNodeMeta_self (g : Graph) (n : String) (m : NodeMeta) :
    dictGet (addNodeMeta g n m).nodes n = some (some m) := by
  by_cases hm : n ∈ g.nodes.map Prod.fst
  · simpa [addNodeMeta, hm] using dictGet_updateMeta_self g.nodes n m hm
  · rw [addNodeMeta]
    simp only [hm, if_false]
    rw [dictGet_append, dictGet_eq_none_of_not_mem g.nodes n hm]
    simp [dictGet]

theorem addNodeMeta_other (g : Graph) (n k : String) (m : NodeMeta) (h : k ≠ n) :
    dictGet (addNodeMeta g n m).nodes k = dictGet g.nodes k := by
  by_cases hm : n ∈ g.nodes.map Prod.fst
  · simpa [addNodeMeta, hm] using dictGet_updateMeta_other g.nodes n k m h
  · rw [addNodeMeta]
    simp only [hm, if_false]
    rw [dictGet_append]
    cases hg : dictGet g.nodes k with
    | some o => rfl
    | none =>
        simp only [Option.elim]
        rw [dictGet, if_neg (Ne.symm h), dictGet]

theorem foldl_addEdge_preserve_some (u : String) :
    ∀ (calls : List String) (g : Graph) (k : String) (o : Option NodeMeta),
      dictGet g.nodes k = some o →
      dictGet ((calls.foldl (fun h c => addEdge h u c) g)).nodes k = some o := by
  intro calls
  induction calls with
  | nil => intro g k o h; exact h
  | cons c rest ih =>
      intro g k o h
      exact ih (addEdge g u c) k o (addEdge_preserve_some g u c k o h)

theorem foldl_addEdge_nodup (u : String) :
    ∀ (calls : List String) (g : Graph),
      (g.nodes.map Prod.fst).Nodup →
      (((calls.foldl (fun h c => addEdge h u c) g)).nodes.map Prod.fst).Nodup := by
  intro calls
  induction calls with
  | nil => intro g h; exact h
  | cons c rest ih =>
      intro g h
      exact ih (addEdge g u c) (addEdge_nodup g u c h)

theorem buildStep_meta_self (g : Graph) (p : String × FunctionInfo) :
    dictGet (buildStep g p).nodes p.2.fqn =
      some (some ⟨p.2.file_path, p.2.start_line, p.2.end_line⟩) := by
  rw [buildStep]
  exact foldl_addEdge_preserve_some p.2.fqn p.2.calls _ p.2.fqn _
    (addNodeMeta_self g p.2.fqn _)

theorem buildStep_preserve_some (g : Graph) (p : String × FunctionInfo) (k : String)
    (o : Option NodeMeta) (hne : p.2.fqn ≠ k) (h : dictGet g.nodes k = some o) :
    dictGet (buildStep g p).nodes k = some o := by
  rw [buildStep]
  refine foldl_addEdge_preserve_some p.2.fqn p.2.calls _ k o ?_
  rw [addNodeMeta_other g p.2.fqn k _ (fun hc => hne hc.symm)]
  exact h

theorem buildStep_nodup (g : Graph) (p : String × FunctionInfo)
    (h : (g.nodes.map Prod.fst).Nodup) : ((buildStep g p).nodes.map Prod.fst).Nodup := by
  rw [buildStep]
  exact foldl_addEdge_nodup p.2.fqn p.2.calls _ (addNodeMeta_nodup g p.2.fqn _ h)

theorem foldl_buildStep_preserve_some :
    ∀ (d : List (String × FunctionInfo)) (g : Graph) (k : String) (o : Option NodeMeta),
      (∀ p ∈ d, p.2.fqn ≠ k) → dictGet g.nodes k = some o →
      dictGet ((d.foldl buildStep g)).nodes k = some o := by
  intro d
  induction d with
  | nil => intro g k o _ h; exact h
  | cons p rest ih =>
      intro g k o hne h
      exact ih (buildStep g p) k o (fun q hq => hne q (by simp [hq]))
        (buildStep_preserve_some g p k o (hne p (by simp)) h)

theorem foldl_buildStep_nodup :
    ∀ (d : List (String × FunctionInfo)) (g : Graph),
      (g.nodes.map Prod.fst).Nodup →
      (((d.foldl buildStep g)).nodes.map Prod.fst).Nodup := by
  intro d
  induction d with
  | nil => intro g h; exact h
  | cons p rest ih =>
      intro g h
      exact ih (buildStep g p) (buildStep_nodup g p h)

theorem build_graph_nodup (infos : List (String × FunctionInfo)) :
    ((build_graph infos).nodes.map Prod.fst).Nodup :=
  foldl_buildStep_nodup infos ⟨[], []⟩ List.nodup_nil

theorem build_graph_meta (d : List (String × FunctionInfo))
    (hnd : (d.map Prod.fst).Nodup) (hcoh : ∀ p ∈ d, p.2.fqn = p.1)
    (k : String) (v : FunctionInfo) (hmem : (k, v) ∈ d) :
    dictGet (build_graph d).nodes k =
      some (some ⟨v.file_path, v.start_line, v.end_line⟩) := by
  obtain ⟨s, t, rfl⟩ := List.append_of_mem hmem
  rw [List.map_append, List.map_cons, List.nodup_append] at hnd
  obtain ⟨hs, hkt, hdisj⟩ := hnd
  have hkt' : k ∉ t.map Prod.fst := (List.nodup_cons.mp hkt).1
  have hfqn : v.fqn = k := hcoh (k, v) (by simp)
  rw [build_graph, List.foldl_append, List.foldl_cons]
  refine foldl_buildStep_preserve_some t _ k _ ?_ ?_
  · intro p hp hk
    exact hkt' (List.mem_map.mpr ⟨p, hp, by rw [← hcoh p (by simp [hp]), hk]⟩)
  · have := buildStep_meta_self (s.foldl buildStep ⟨[], []⟩) (k, v)
    rw [show ((k, v) : String × FunctionInfo).2.fqn = k from hfqn] at this
    exact this

theorem collect_infos_inner (root : PPath) (u : Bool) (f : JavaFile) :
    ∀ (d : List (String × FunctionInfo)),
      f.methods.foldl (fun infos m =>
        dictInsert (methodInfo root f m u).fqn (methodInfo root f m u) infos) d =
      (f.methods.map (fun m => ((methodInfo root f m u).fqn, methodInfo root f m u))).foldl
        (fun acc p => dictInsert p.1 p.2 acc) d := by
  intro d
  rw [List.foldl_map]

theorem collect_eq_insertAll_aux (root : PPath) (u : Bool) :
    ∀ (files : List JavaFile) (d : List (String × FunctionInfo)),
      files.foldl (fun infos f => f.methods.foldl (fun infos m =>
        dictInsert (methodInfo root f m u).fqn (methodInfo root f m u) infos) infos) d =
      (files.flatMap (fun f => f.methods.map (fun m =>
        ((methodInfo root f m u).fqn, methodInfo root f m u)))).foldl
        (fun acc p => dictInsert p.1 p.2 acc) d := by
  intro files
  induction files with
  | nil => intro d; rfl
  | cons f rest ih =>
      intro d
      simp only [List.foldl_cons, List.flatMap_cons, List.foldl_append]
      rw [← collect_infos_inner root u f d]
      exact ih _

theorem collect_infos_eq_insertAll (root : PPath) (files : List JavaFile) (u : Bool) :
    collect_infos root files u = insertAll (declSeq root files u) :=
  collect_eq_insertAll_aux root u files []

/-- C7: the record dict built from any sequence of declarations (in indexing
order, each carrying its own fqn as key) has pairwise-distinct fqns, the
entry retained for a duplicated fqn is the last declaration observed, the
built graph's node keys are pairwise distinct, and the node stored under
that fqn carries exactly the retained declaration's `{file, start, end}`
metadata; moreover `collect_infos` is precisely this dict-replay over its
declaration sequence. -/
theorem one_node_per_fqn_last_declaration_wins
    (l : List (String × FunctionInfo)) (hcoh : ∀ p ∈ l, p.2.fqn = p.1)
    (k : String) (v : FunctionInfo)
    (hget : dictGet (insertAll l) k = some v) :
    ((insertAll l).map Prod.fst).Nodup ∧
    (l.reverse.find? (fun p => decide (p.1 = k))).map Prod.snd = some v ∧
    ((build_graph (insertAll l)).nodes.map Prod.fst).Nodup ∧
    dictGet (build_graph (insertAll l)).nodes k =
      some (some ⟨v.file_path, v.start_line, v.end_line⟩) ∧
    ∀ (root : PPath) (files : List JavaFile) (u : Bool),
      collect_infos root files u = insertAll (declSeq root files u) := by
  refine ⟨insertAll_nodup l, ?_, build_graph_nodup (insertAll l), ?_,
    collect_infos_eq_insertAll⟩
  · have h := dictGet_foldl_insert l [] k
    rw [insertAll] at hget
    rw [hget] at h
    cases hf : l.reverse.find? (fun p => decide (p.1 = k)) with
    | none =>
        rw [hf] at h
        cases h
    | some p =>
        rw [hf] at h
        simpa using h.symm
  · have hmem : (k, v) ∈ insertAll l := dictGet_mem (insertAll l) k v hget
    have hcoh' : ∀ p ∈ insertAll l, p.2.fqn = p.1 :=
      fun p hp => hcoh p (mem_insertAll l p hp)
    exact build_graph_meta (insertAll l) (insertAll_nodup l) hcoh' k v hmem

def dupInfoA : FunctionInfo :=
  { fqn := "p.C.f", file_path := "A.java", start_line := 0, end_line := 1 }

def dupInfoB : FunctionInfo :=
  { fqn := "p.C.f", file_path := "B.java", start_line := 5, end_line := 9 }

/-- Witness for C7: two declarations with the same fqn — the dict keeps one
entry, the later declaration's, and the graph node carries its metadata. -/
theorem one_node_per_fqn_last_declaration_wins_witness :
    ((insertAll [("p.C.f", dupInfoA), ("p.C.f", dupInfoB)]).map Prod.fst).Nodup ∧
    (([("p.C.f", dupInfoA), ("p.C.f", dupInfoB)].reverse.find?
        (fun p => decide (p.1 = "p.C.f"))).map Prod.snd = some dupInfoB) ∧
    ((build_graph (insertAll [("p.C.f", dupInfoA), ("p.C.f", dupInfoB)])).nodes.map
        Prod.fst).Nodup ∧
    dictGet (build_graph (insertAll [("p.C.f", dupInfoA), ("p.C.f", dupInfoB)])).nodes
        "p.C.f" = some (some ⟨"B.java", 5, 9⟩) := by
  have h := one_node_per_fqn_last_declaration_wins
    [("p.C.f", dupInfoA), ("p.C.f", dupInfoB)] (by decide) "p.C.f" dupInfoB (by decide)
  exact ⟨h.1, h.2.1, h.2.2.1, h.2.2.2.1⟩

end JavaCG
